import Mathlib

/-!
Verification development for the fmmgen dipole FMM / Barnes-Hut example
programs (peps `tree.hpp`, bh-dipole `tree.hpp`, `scaling_test.cpp`,
`lazy.cpp`).

Modelling conventions:
* C++ `double` values are modelled as exact rationals (`ℚ`); floating-point
  rounding is outside the scope of this embedding.  Calls to `std::sqrt`
  inside numeric set-up code are abstracted by an explicit function
  parameter, and geometric comparisons involving Euclidean norms are kept
  in squared (rational) form inside the executable definitions, with the
  norm form recovered over `ℝ` in the theorems.
* C++ `std::vector` / raw arrays become `List`s; raw pointers into an
  arena become natural-number offsets.
* Fallible or undefined behaviour (null-pointer dereference, failed
  builds) is made explicit with `Option` / `Except` / boolean flags.
-/

namespace Fmmgen

/-- A cell of the octree, mirroring the field list of `Cell` in the peps
variant of `tree.hpp` (`nleaf`, `nchild`, `level`, `child`, `M`, `L`,
`leaf`, `x`, `y`, `z`, `r`, `rmax`, `parent`).  The raw coefficient
pointers `M` and `L` are modelled as arena offsets. -/
structure CellT where
  nleaf : Nat
  nchild : Nat
  level : Nat
  child : List Nat
  M : Nat
  L : Nat
  leaf : List Nat
  x : ℚ
  y : ℚ
  z : ℚ
  r : ℚ
  rmax : ℚ
  parent : Nat
deriving DecidableEq, Inhabited

/-- The copy-assignment operator `Cell::operator=` of the peps variant
(`tree.hpp`, lines 61-76): it assigns `nleaf`, `nchild`, `level`, `child`,
`M`, `L`, `leaf`, `x`, `y`, `z`, `r` and `parent` from `other` into
`this`, and contains no assignment to `rmax`, so the target's `rmax`
persists. -/
def cellAssign (this other : CellT) : CellT :=
  { nleaf := other.nleaf
    nchild := other.nchild
    level := other.level
    child := other.child
    M := other.M
    L := other.L
    leaf := other.leaf
    x := other.x
    y := other.y
    z := other.z
    r := other.r
    rmax := this.rmax
    parent := other.parent }

/-- Modelled from the spec: the body of `Nterms` is not under `src/`
(only its call sites in `scaling_test.cpp`); the spec fixes
`Nterms(p) = (p+1)(p+2)(p+3)/6`. -/
def Nterms (p : Nat) : Nat := (p + 1) * (p + 2) * (p + 3) / 6

/-- Per-cell M-coefficient length, from the arena allocation
`cells.size() * (Nterms(order) - Nterms(0))` in `scaling_test.cpp`
line 79. -/
def Msize (order : Nat) : Nat := Nterms order - Nterms 0

/-- Per-cell L-coefficient length, from the arena allocation
`cells.size() * Nterms(order - 1)` in `scaling_test.cpp` line 80. -/
def Lsize (order : Nat) : Nat := Nterms (order - 1)

/-- The global M-arena, `std::vector<double> M(cells.size() * (Nterms(order)
- Nterms(0)), 0.0)` of `scaling_test.cpp` line 79 (zero-initialised). -/
def arenaM (ncells order : Nat) : List ℚ := List.replicate (ncells * Msize order) 0

/-- The global L-arena of `scaling_test.cpp` line 80. -/
def arenaL (ncells order : Nat) : List ℚ := List.replicate (ncells * Lsize order) 0

/-- Base offset of cell `k`'s M slice: `cells[i].M = &M[i*(Nterms(order) -
Nterms(0))]` (`scaling_test.cpp` line 85). -/
def MbaseOf (order k : Nat) : Nat := k * Msize order

/-- Base offset of cell `k`'s L slice: `cells[i].L = &L[i*(Nterms(order-1))]`
(`scaling_test.cpp` line 86). -/
def LbaseOf (order k : Nat) : Nat := k * Lsize order

/-- The M slice of cell `k` inside the global arena: the `Msize order`
entries starting at its base pointer. -/
def McellSlice (ncells order k : Nat) : List ℚ :=
  ((arenaM ncells order).drop (MbaseOf order k)).take (Msize order)

/-- The L slice of cell `k` inside the global arena. -/
def LcellSlice (ncells order k : Nat) : List ℚ :=
  ((arenaL ncells order).drop (LbaseOf order k)).take (Lsize order)

/-- The arena indices occupied by cell `k`'s M coefficients (base pointer
plus extent). -/
def McellIndices (order k : Nat) : Finset Nat :=
  Finset.Ico (MbaseOf order k) (MbaseOf order k + Msize order)

/-- The arena indices occupied by cell `k`'s L coefficients. -/
def LcellIndices (order k : Nat) : Finset Nat :=
  Finset.Ico (LbaseOf order k) (LbaseOf order k + Lsize order)

/-- The two accelerated field computations exposed by the `Tree` facade. -/
inductive FieldMethod where
  | fmm
  | bh
deriving DecidableEq

/-- The `type` dispatch of `lazy.cpp` lines 83-88: `type == 0` calls
`tree.compute_field_fmm`, `type == 1` calls `tree.compute_field_bh`, any
other value calls neither. -/
def methodCall (ty : Nat) : Option FieldMethod :=
  if ty = 0 then some FieldMethod.fmm
  else if ty = 1 then some FieldMethod.bh
  else none

/-- Command-line parameters of `lazy.cpp` after parsing (lines 17-21). -/
structure LazyParams where
  Nparticles : Nat
  ncrit : Nat
  theta : ℚ
  maxorder : Nat
  ty : Nat
deriving DecidableEq

/-- The orders visited by the loop `for (order = minorder; order < maxorder;
order++)` of `lazy.cpp` line 71, with `minorder = 2`. -/
def lazyOrders (maxorder : Nat) : List Nat := List.range' 2 (maxorder - 2)

/-- The observable run of `lazy.cpp` `main` after successful parsing: for
each order it records which accelerated field method was invoked, and the
program finally returns 0 (line 119). -/
def lazyRun (p : LazyParams) : List (Nat × Option FieldMethod) × Nat :=
  ((lazyOrders p.maxorder).foldl (fun tr order => tr ++ [(order, methodCall p.ty)]) [], 0)

/-- The error-file name built in `lazy.cpp` lines 93-97.  The rendering of
`theta` (a C++ `double` passed through `std::to_string`) is kept as an
explicit string parameter. -/
def errFileName (order N ncrit : Nat) (thetaStr : String) (ty : Nat) : String :=
  "errors_lazy_p_" ++ toString order ++ "_n_" ++ toString N ++ "_ncrit_" ++
    toString ncrit ++ "_theta_" ++ thetaStr ++ "_type_" ++ toString ty ++ ".txt"

/-- The per-particle relative-error lines emitted by the loop of
`lazy.cpp` lines 99-103: for `i = 0..N-1` in order, one value
`(F_exact[i] - F_approx[i]) / F_exact[i]` is appended. -/
def errLines (Fexact Fapprox : List ℚ) (N : Nat) : List ℚ :=
  (List.range N).foldl
    (fun acc i => acc ++ [(Fexact.getD i 0 - Fapprox.getD i 0) / Fexact.getD i 0]) []

/-- An emitted error file: its name and its lines (one value per line). -/
structure ErrFile where
  name : String
  lines : List ℚ
deriving DecidableEq

/-- The error file written by one loop iteration of `lazy.cpp`
lines 91-103. -/
def writeErrFile (order N ncrit : Nat) (thetaStr : String) (ty : Nat)
    (Fexact Fapprox : List ℚ) : ErrFile :=
  ⟨errFileName order N ncrit thetaStr ty, errLines Fexact Fapprox N⟩

/-- Memory state of the set-up phase of `scaling_test.cpp`: the heap
arrays `r` and `mu` (`new double[3*Nparticles]`, entries `none` until
written) and the particle vector, each particle holding the offsets of
its position and moment 3-vectors (the pointers `&r[3*i]`, `&mu[3*i]`). -/
structure ScalingSetupSt where
  rMem : List (Option ℚ)
  muMem : List (Option ℚ)
  particles : List (Nat × Nat)
deriving DecidableEq

/-- One iteration of the set-up loop of `scaling_test.cpp` lines 38-62:
six random values are drawn (`mux, muy, muz, x, y, z` in that order), the
moment is normalised by `mod = sqrt(mux^2+muy^2+muz^2)` (`sqrtA`
abstracts `std::sqrt`) and written to `mu[3*i..3*i+2]`, and
`Particle(&r[3*i], &mu[3*i])` is pushed.  The drawn `x, y, z` are bound
but never stored, and no entry of `r` is written. -/
def scalingStep (draw : Nat → ℚ) (sqrtA : ℚ → ℚ) (st : ScalingSetupSt) (i : Nat) :
    ScalingSetupSt :=
  let mux := draw (6 * i)
  let muy := draw (6 * i + 1)
  let muz := draw (6 * i + 2)
  let _x := draw (6 * i + 3)
  let _y := draw (6 * i + 4)
  let _z := draw (6 * i + 5)
  let nrm := sqrtA (mux * mux + muy * muy + muz * muz)
  { st with
      muMem := ((st.muMem.set (3 * i) (some (mux / nrm))).set (3 * i + 1)
        (some (muy / nrm))).set (3 * i + 2) (some (muz / nrm))
      particles := st.particles ++ [(3 * i, 3 * i)] }

/-- The full set-up of `scaling_test.cpp` before `evaluate_direct` and
`build_tree` are called: fresh arrays of length `3*N` and the loop over
all particles. -/
def scalingSetup (N : Nat) (draw : Nat → ℚ) (sqrtA : ℚ → ℚ) : ScalingSetupSt :=
  (List.range N).foldl (scalingStep draw sqrtA)
    ⟨List.replicate (3 * N) none, List.replicate (3 * N) none, []⟩

/-- A failure mode of the `lazy.cpp` argument parsing: dereferencing a
null `char*` taken from the argument vector at the given index. -/
inductive ArgvCrash where
  | nullDeref (i : Nat)
deriving DecidableEq

/-- C-style access to the argument vector: `argv[i]` for `i < argc` is an
argument string, and `argv[argc]` is the null terminator (modelled, like
any out-of-range slot, as `none`; only index `argc` is ever consulted
past the end here). -/
def cArgvGet (argv : List String) (i : Nat) : Option String := argv[i]?

/-- The unconditional reads `argv[1] .. argv[5]` performed by `lazy.cpp`
lines 17-21 before any other work, in statement order; a read that hits a
null pointer aborts with `nullDeref`. -/
def lazyReadArgs (argv : List String) :
    Except ArgvCrash (String × String × String × String × String) :=
  match cArgvGet argv 1, cArgvGet argv 2, cArgvGet argv 3, cArgvGet argv 4,
      cArgvGet argv 5 with
  | some a1, some a2, some a3, some a4, some a5 => .ok (a1, a2, a3, a4, a5)
  | none, _, _, _, _ => .error (.nullDeref 1)
  | _, none, _, _, _ => .error (.nullDeref 2)
  | _, _, none, _, _ => .error (.nullDeref 3)
  | _, _, _, none, _ => .error (.nullDeref 4)
  | _, _, _, _, none => .error (.nullDeref 5)

/-- Whether an `Except` computation succeeded. -/
def exceptOk {ε α : Type} : Except ε α → Bool
  | .ok _ => true
  | .error _ => false

/-- Cell lookup in the flat cell vector (a default cell out of range, as
for `std::vector` indexing this case never occurs in a well-formed run). -/
def getC (cs : List CellT) (i : Nat) : CellT := cs.getD i default

/-- Modelled from the spec: after construction `nleaf < ncrit` identifies
a leaf (spec data model; also the commented-out leaf test of
`scaling_test.cpp` lines 92-96). -/
def isLeafC (ncrit : Nat) (c : CellT) : Bool := c.nleaf < ncrit

/-- Squared Euclidean distance between the centres of two cells. -/
def dist2 (a b : CellT) : ℚ :=
  (a.x - b.x) ^ 2 + (a.y - b.y) ^ 2 + (a.z - b.z) ^ 2

/-- Modelled from the spec: the Dehnen multipole-acceptance criterion
used by `interact_dehnen` (whose body is not under `src/`): the pair is
admissible iff `dist(c_j, c_k) > (rmax_j + rmax_k) / theta`, kept here in
the equivalent squared rational form so that it is executable; the norm
form is recovered over `ℝ` in the admissibility theorem. -/
def admissibleB (theta : ℚ) (a b : CellT) : Bool :=
  decide ((a.rmax + b.rmax) ^ 2 < dist2 a b * theta ^ 2)

/-- The three possible treatments of a cell pair in the driver. -/
inductive PairAction where
  | near
  | far
  | descend
deriving DecidableEq

/-- Modelled from the spec: the decision taken by the driver on a pair
(j, k): both leaves gives the near-field (P2P) case, otherwise an
admissible pair is treated as far field (M2L / M2P), otherwise the pair
is split by descending the larger cell. -/
def pairAction (ncrit : Nat) (theta : ℚ) (cs : List CellT) (j k : Nat) : PairAction :=
  if isLeafC ncrit (getC cs j) && isLeafC ncrit (getC cs k) then PairAction.near
  else if admissibleB theta (getC cs j) (getC cs k) then PairAction.far
  else PairAction.descend

/-- A kernel invocation emitted by the driver: `p2p target source`,
`m2l target source`, or `m2p source particle`. -/
inductive Dispatch where
  | p2p (tgt src : Nat)
  | m2l (tgt src : Nat)
  | m2p (src particle : Nat)
deriving DecidableEq

/-- The indices of the existing children of a cell, decoded from the
`nchild` occupancy bitmask and the `child` slot array. -/
def childListOf (c : CellT) : List Nat :=
  (List.range 8).filterMap
    (fun o => if c.nchild.testBit o then some (c.child.getD o 0) else none)

/-- Modelled from the spec: the particle indices of the subtree rooted at
cell `j` (leaf lists of the leaves below `j`), with explicit recursion
fuel bounding the depth. -/
def subtreeParticles (ncrit : Nat) (cs : List CellT) : Nat → Nat → List Nat
  | 0, j => (getC cs j).leaf
  | fuel + 1, j =>
    if isLeafC ncrit (getC cs j) then (getC cs j).leaf
    else ((childListOf (getC cs j)).map (subtreeParticles ncrit cs fuel)).flatten

/-- Modelled from the spec: the dual-tree recursion of the interaction
driver `interact_dehnen(j, k, ...)`, recorded as the list of kernel
dispatches it performs.  Both cells leaves: P2P.  Otherwise, admissible:
M2L in FMM mode, M2P against every particle of the target subtree in BH
mode.  Otherwise descend the larger (by radius `r`) of the two cells into
its existing children, recursing pairwise against the other. -/
def interact_dehnen (mode : FieldMethod) (ncrit : Nat) (theta : ℚ) (cs : List CellT) :
    Nat → Nat → Nat → List Dispatch
  | 0, _, _ => []
  | fuel + 1, j, k =>
    match pairAction ncrit theta cs j k with
    | PairAction.near => [Dispatch.p2p j k]
    | PairAction.far =>
      match mode with
      | FieldMethod.fmm => [Dispatch.m2l j k]
      | FieldMethod.bh => (subtreeParticles ncrit cs fuel j).map (Dispatch.m2p k)
    | PairAction.descend =>
      if (getC cs k).r ≤ (getC cs j).r then
        ((childListOf (getC cs j)).map
          (fun c => interact_dehnen mode ncrit theta cs fuel c k)).flatten
      else
        ((childListOf (getC cs k)).map
          (fun c => interact_dehnen mode ncrit theta cs fuel j c)).flatten

/-- A sample non-leaf cell at the origin used to instantiate the
admissibility theorem. -/
def demoCellA : CellT :=
  { nleaf := 1, nchild := 0, level := 0, child := List.replicate 8 0, M := 0, L := 0,
    leaf := [0], x := 0, y := 0, z := 0, r := 1, rmax := 1, parent := 0 }

/-- A sample cell displaced along x. -/
def demoCellB : CellT := { demoCellA with x := 4, leaf := [1] }

/-- A particle: position and dipole moment components (the data the
builder and the facade read through the flat arrays). -/
structure PartT where
  px : ℚ
  py : ℚ
  pz : ℚ
  mx : ℚ
  my : ℚ
  mz : ℚ
deriving DecidableEq, Inhabited

/-- The cell constructor `Cell(x, y, z, r, parent, order, level, ncrit)`:
a fresh cell with the given geometry, no particles and no children.  The
`order` and `ncrit` arguments only size internal buffers in the source
and carry no observable state here. -/
def mkCell (x y z r : ℚ) (parent order level ncrit : Nat) : CellT :=
  { nleaf := 0, nchild := 0, level := level, child := List.replicate 8 0, M := 0, L := 0,
    leaf := [], x := x, y := y, z := z, r := r, rmax := 0, parent := parent }

/-- Modelled from the spec: octant of a particle relative to a cell
centre — one sign bit per axis, ties to the positive side. -/
def octantOf (c : CellT) (pt : PartT) : Nat :=
  (if c.x ≤ pt.px then 1 else 0) + (if c.y ≤ pt.py then 2 else 0) +
    (if c.z ≤ pt.pz then 4 else 0)

/-- Offset of a child centre along one axis: `+half` on the positive
side of the octant, `-half` otherwise. -/
def octSign (b : Bool) (half : ℚ) : ℚ := if b then half else -half

/-- Modelled from the spec: the child cell created in octant `o` of the
parent cell `pc` (itself at index `pIdx`): centre displaced by `±r/2`
along each axis, radius halved, level incremented. -/
def childCell (pc : CellT) (pIdx o order ncrit : Nat) : CellT :=
  mkCell (pc.x + octSign (o.testBit 0) (pc.r / 2))
    (pc.y + octSign (o.testBit 1) (pc.r / 2))
    (pc.z + octSign (o.testBit 2) (pc.r / 2))
    (pc.r / 2) pIdx order (pc.level + 1) ncrit

/-- Append particle `i` to cell `p`'s leaf list and increment its
`nleaf`. -/
def addLeaf (cs : List CellT) (p i : Nat) : List CellT :=
  cs.set p
    { getC cs p with leaf := (getC cs p).leaf ++ [i], nleaf := (getC cs p).nleaf + 1 }

/-- Increment cell `p`'s running particle count only (the count keeps
growing when particles pass through a split cell, per the `nleaf`
documentation in `tree.hpp`). -/
def bumpCount (cs : List CellT) (p : Nat) : List CellT :=
  cs.set p { getC cs p with nleaf := (getC cs p).nleaf + 1 }

/-- Descend one level from the interior cell `p`: find the particle's
octant, create the child cell there if absent (updating `p`'s child slot
and `nchild` bit), and continue with `ins` inside the child. -/
def pushDownIn (ins : List CellT → Nat → Nat → List CellT × Bool)
    (parts : List PartT) (order ncrit : Nat) (cs : List CellT) (p i : Nat) :
    List CellT × Bool :=
  let pc := getC cs p
  let o := octantOf pc (parts.getD i default)
  if pc.nchild.testBit o then
    ins cs (pc.child.getD o 0) i
  else
    let cIdx := cs.length
    let cs1 := cs ++ [childCell pc p o order ncrit]
    let cs2 := cs1.set p
      { pc with child := pc.child.set o cIdx, nchild := pc.nchild ||| (1 <<< o) }
    ins cs2 cIdx i

/-- Modelled from the spec: the redistribution phase of `split_cell`; the
particles of the just-split cell `pc` (at index `pIdx`) are pushed one by
one into the child octant cells, which are created on demand.  The
freshly split cell has no prior children, so its child slot table and
occupancy mask are threaded explicitly (`tbl`, `mask`) and written back
by the caller; `cap` accumulates whether any recursion ran out of
depth. -/
def redistribute (ins : List CellT → Nat → Nat → List CellT × Bool)
    (parts : List PartT) (order ncrit : Nat) (pc : CellT) (pIdx : Nat) :
    List Nat → List CellT → List Nat → Nat → Bool → List CellT × List Nat × Nat × Bool
  | [], cs, tbl, mask, cap => (cs, tbl, mask, cap)
  | l :: ls, cs, tbl, mask, cap =>
    let o := octantOf pc (parts.getD l default)
    if mask.testBit o then
      let r1 := ins cs (tbl.getD o 0) l
      redistribute ins parts order ncrit pc pIdx ls r1.1 tbl mask (cap || r1.2)
    else
      let cIdx := cs.length
      let cs1 := cs ++ [childCell pc pIdx o order ncrit]
      let r1 := ins cs1 cIdx l
      redistribute ins parts order ncrit pc pIdx ls r1.1 (tbl.set o cIdx)
        (mask ||| (1 <<< o)) (cap || r1.2)

/-- Modelled from the spec: insertion of particle `i` into the subtree
rooted at cell `p`.  Below the threshold the particle joins the leaf
list; if that insertion makes `nleaf` reach `ncrit` the cell is split:
its particles are redistributed into child octants and its leaf list is
cleared, while `nleaf` stays at the crossed value as the interior-node
marker.  At or above the threshold the count is bumped and the particle
descends.  `fuel` bounds the recursion depth; exhaustion is flagged in
the boolean component (the fixed maximum-depth escape of the spec). -/
def insertP (parts : List PartT) (order ncrit : Nat) :
    Nat → List CellT → Nat → Nat → List CellT × Bool
  | 0, cs, p, i => (addLeaf cs p i, true)
  | fuel + 1, cs, p, i =>
    if (getC cs p).nleaf < ncrit then
      let cs1 := addLeaf cs p i
      let pc := getC cs1 p
      if ncrit ≤ pc.nleaf then
        let cs2 := cs1.set p
          { pc with leaf := [], nleaf := 0, nchild := 0, child := List.replicate 8 0 }
        let rr := redistribute (fun cs c l => insertP parts order ncrit fuel cs c l)
          parts order ncrit pc p pc.leaf cs2 (List.replicate 8 0) 0 false
        (rr.1.set p { pc with leaf := [], child := rr.2.1, nchild := rr.2.2.1 }, rr.2.2.2)
      else (cs1, false)
    else
      pushDownIn (fun cs c l => insertP parts order ncrit fuel cs c l) parts order ncrit
        (bumpCount cs p) p i

/-- The insertion loop of `build_tree`: every particle is inserted
starting from the root (cell 0). -/
def insertLoop (parts : List PartT) (order ncrit fuel : Nat) :
    List Nat → List CellT → Bool → List CellT × Bool
  | [], cs, cap => (cs, cap)
  | i :: is, cs, cap =>
    let r := insertP parts order ncrit fuel cs 0 i
    insertLoop parts order ncrit fuel is r.1 (cap || r.2)

/-- Modelled from the spec: `build_tree(particles, root, ncrit, order)`
(the peps `tree.hpp` entry whose body is not under `src/`): starting from
the root as the only cell, insert every particle in index order.  The
boolean component records whether the depth bound was ever reached. -/
def build_tree (parts : List PartT) (root : CellT) (ncrit order fuel : Nat) :
    List CellT × Bool :=
  insertLoop parts order ncrit fuel (List.range parts.length) [root] false

/-- The per-cell construction invariant: a cell still below the split
threshold has no children, and a split cell (marked by `nleaf ≥ ncrit`)
has an empty leaf list and at least one child. -/
def QCell (ncrit : Nat) (c : CellT) : Prop :=
  (c.nleaf < ncrit → c.nchild = 0) ∧ (ncrit ≤ c.nleaf → c.leaf = [] ∧ c.nchild ≠ 0)

instance (ncrit : Nat) (c : CellT) : Decidable (QCell ncrit c) := by
  unfold QCell; infer_instance

/-- The whole-vector construction invariant (out-of-range slots read as
the default cell, which satisfies `QCell` whenever `1 ≤ ncrit`). -/
def InvC (ncrit : Nat) (cs : List CellT) : Prop := ∀ j, QCell ncrit (getC cs j)

/-- Concrete particles for the build witness: one in the all-positive
octant, one in the all-negative octant of a root centred at the
origin. -/
def demoParts : List PartT := [⟨1, 1, 1, 0, 0, 1⟩, ⟨-1, -1, -1, 0, 0, 1⟩]

/-- Modelled from the spec: the build-time failure kinds. -/
inductive BuildErr where
  | invalidParameters
  | invalidGeometry
deriving DecidableEq

/-- Decoding of the flat length-3N x,y,z-interleaved `positions` and
`moments` arrays: particle `i` reads entries `3i, 3i+1, 3i+2` of each. -/
def decodeParticles (positions moments : List ℚ) (N : Nat) : List PartT :=
  (List.range N).map (fun i =>
    ⟨positions.getD (3 * i) 0, positions.getD (3 * i + 1) 0, positions.getD (3 * i + 2) 0,
     moments.getD (3 * i) 0, moments.getD (3 * i + 1) 0, moments.getD (3 * i + 2) 0⟩)

/-- The `Tree` object returned by the facade: the particle view, the
cell vector, and the build parameters. -/
structure TreeT where
  particles : List PartT
  cells : List CellT
  N : Nat
  ncrit : Nat
  order : Nat
  theta : ℚ
deriving DecidableEq

/-- Recursion depth bound used by the facade's internal build and
traversals. -/
def buildFuel : Nat := 64

/-- Modelled from the spec: the public entry
`build_tree(positions, moments, N, ncrit, order, θ) → Tree` (the body of
this overload is not under `src/`; `lazy.cpp` line 72 is its call site).
Parameter validation follows the spec's error design: `ncrit < 1`,
`order < 2`, `θ ≤ 0` or `N = 0` is InvalidParameters, surfaced at build
and fatal, producing no tree object.  On success the returned tree owns
the decoded particle view and the cells built over it. -/
def build_tree_api (positions moments : List ℚ) (N ncrit order : Nat) (theta : ℚ) :
    Except BuildErr TreeT :=
  if ncrit < 1 ∨ order < 2 ∨ theta ≤ 0 ∨ N = 0 then
    Except.error BuildErr.invalidParameters
  else
    let parts := decodeParticles positions moments N
    Except.ok ⟨parts,
      (build_tree parts (mkCell 0 0 0 1 0 order 0 ncrit) ncrit order buildFuel).1,
      N, ncrit, order, theta⟩

/-- Modelled from the spec: `Tree::compute_field_exact` is specified only
as an interface — the direct O(N^2) sum of a pairwise dipole kernel `K`
with self-exclusion, one output value per particle. -/
def compute_field_exact (K : PartT → PartT → ℚ) (t : TreeT) : List ℚ :=
  (List.range t.particles.length).map (fun i =>
    ((List.range t.particles.length).filter (fun j => j != i)).foldl
      (fun acc j => acc + K (t.particles.getD j default) (t.particles.getD i default)) 0)

/-- The numeric evaluation kernels of the accelerated methods, abstract
over the harmonic basis (the spec leaves the basis to the implementer). -/
structure FieldOps where
  p2pVal : PartT → PartT → ℚ
  m2pVal : CellT → PartT → ℚ
  m2lVal : CellT → CellT → PartT → ℚ

/-- Accumulate one driver dispatch into the per-particle output vector:
P2P adds the pairwise kernel over the two leaf lists (excluding self
pairs), M2P adds the cell evaluation at its target particle, and M2L
adds the far-field contribution that reaches each particle of the target
subtree through the L2L/L2P sweeps.  Every update is a `List.set`, so
the vector length never changes. -/
def applyDispatch (ops : FieldOps) (t : TreeT) (F : List ℚ) (d : Dispatch) : List ℚ :=
  match d with
  | Dispatch.p2p j k =>
    (getC t.cells j).leaf.foldl (fun F2 tgt =>
      F2.set tgt (F2.getD tgt 0 +
        ((getC t.cells k).leaf.filter (fun s => !(j == k && s == tgt))).foldl
          (fun acc s =>
            acc + ops.p2pVal (t.particles.getD s default) (t.particles.getD tgt default))
          0)) F
  | Dispatch.m2p k i =>
    F.set i (F.getD i 0 + ops.m2pVal (getC t.cells k) (t.particles.getD i default))
  | Dispatch.m2l j k =>
    (subtreeParticles t.ncrit t.cells buildFuel j).foldl (fun F2 tgt =>
      F2.set tgt (F2.getD tgt 0 +
        ops.m2lVal (getC t.cells j) (getC t.cells k) (t.particles.getD tgt default))) F

/-- Modelled from the spec: `Tree::compute_field_fmm` — the interaction
driver in FMM mode from the root pair, every dispatch accumulated into a
length-N output vector. -/
def compute_field_fmm (ops : FieldOps) (t : TreeT) : List ℚ :=
  (interact_dehnen FieldMethod.fmm t.ncrit t.theta t.cells buildFuel 0 0).foldl
    (applyDispatch ops t) (List.replicate t.particles.length 0)

/-- Modelled from the spec: `Tree::compute_field_bh` — the driver in BH
mode. -/
def compute_field_bh (ops : FieldOps) (t : TreeT) : List ℚ :=
  (interact_dehnen FieldMethod.bh t.ncrit t.theta t.cells buildFuel 0 0).foldl
    (applyDispatch ops t) (List.replicate t.particles.length 0)

/-- Concrete flat position array for the facade witness. -/
def demoPos : List ℚ := [1, 1, 1, -1, -1, -1]

/-- Concrete flat moment array for the facade witness. -/
def demoMom : List ℚ := [0, 0, 1, 0, 0, 1]

/-- C10. The `Cell` copy-assignment operator of the FMM (peps) variant
copies `nleaf`, `nchild`, `level`, `child`, `M`, `L`, `leaf`, `x`, `y`,
`z`, `r` and `parent` from the source but leaves the target's `rmax`
unchanged: the assigned cell equals the source cell except that its
`rmax` is the target's previous `rmax`. -/
theorem cellAssign_frames_rmax (c other : CellT) :
    cellAssign c other = { other with rmax := c.rmax } := by
  rfl

/-- C1. For a tree with `ncells` cells at expansion order `p`: cell `k`'s
M slice has length `Nterms p - Nterms 0` and its L slice has length
`Nterms (p-1)`; the M (resp. L) coefficients of cell `k` occupy exactly
the arena indices `[k*Msize, (k+1)*Msize)` (resp. with `Lsize`), those
index ranges lie inside the corresponding global arena, and the ranges
of distinct cells are disjoint. -/
theorem cell_coefficient_slices (ncells p k : Nat) (hk : k < ncells) :
    (McellSlice ncells p k).length = Nterms p - Nterms 0 ∧
    (LcellSlice ncells p k).length = Nterms (p - 1) ∧
    McellIndices p k = Finset.Ico (k * Msize p) ((k + 1) * Msize p) ∧
    LcellIndices p k = Finset.Ico (k * Lsize p) ((k + 1) * Lsize p) ∧
    MbaseOf p k + Msize p ≤ (arenaM ncells p).length ∧
    LbaseOf p k + Lsize p ≤ (arenaL ncells p).length ∧
    (∀ j, j ≠ k → Disjoint (McellIndices p k) (McellIndices p j)) ∧
    (∀ j, j ≠ k → Disjoint (LcellIndices p k) (LcellIndices p j)) := by
  have hmul : ∀ m a b : Nat, a ≤ b → a * m ≤ b * m := fun m a b h =>
    Nat.mul_le_mul_right m h
  have hfit : ∀ m : Nat, k * m + m ≤ ncells * m := by
    intro m
    have h1 : (k + 1) * m ≤ ncells * m := hmul m _ _ hk
    have h2 : (k + 1) * m = k * m + m := Nat.succ_mul k m
    omega
  have hdisj : ∀ m j : Nat, j ≠ k →
      Disjoint (Finset.Ico (k * m) (k * m + m)) (Finset.Ico (j * m) (j * m + m)) := by
    intro m j hj
    rw [Finset.disjoint_left]
    intro a ha hb
    rw [Finset.mem_Ico] at ha hb
    rcases Nat.lt_or_ge k j with hlt | hge
    · have h1 : (k + 1) * m ≤ j * m := hmul m _ _ hlt
      have h2 : (k + 1) * m = k * m + m := Nat.succ_mul k m
      omega
    · have hlt : j < k := lt_of_le_of_ne hge hj
      have h1 : (j + 1) * m ≤ k * m := hmul m _ _ hlt
      have h2 : (j + 1) * m = j * m + m := Nat.succ_mul j m
      omega
  refine ⟨?_, ?_, ?_, ?_, ?_, ?_, ?_, ?_⟩
  · show (McellSlice ncells p k).length = Msize p
    have := hfit (Msize p)
    simp only [McellSlice, arenaM, MbaseOf, List.length_take, List.length_drop,
      List.length_replicate]
    omega
  · show (LcellSlice ncells p k).length = Lsize p
    have := hfit (Lsize p)
    simp only [LcellSlice, arenaL, LbaseOf, List.length_take, List.length_drop,
      List.length_replicate]
    omega
  · simp only [McellIndices, MbaseOf]
    have h2 : (k + 1) * Msize p = k * Msize p + Msize p := Nat.succ_mul k (Msize p)
    rw [h2]
  · simp only [LcellIndices, LbaseOf]
    have h2 : (k + 1) * Lsize p = k * Lsize p + Lsize p := Nat.succ_mul k (Lsize p)
    rw [h2]
  · simpa [arenaM, MbaseOf] using hfit (Msize p)
  · simpa [arenaL, LbaseOf] using hfit (Lsize p)
  · intro j hj
    simpa [McellIndices, MbaseOf] using hdisj (Msize p) j hj
  · intro j hj
    simpa [LcellIndices, LbaseOf] using hdisj (Lsize p) j hj

/-- Witness for C1 at `ncells = 9`, `p = 3`, `k = 1`. -/
theorem cell_coefficient_slices_witness :
    1 < 9 ∧
    ((McellSlice 9 3 1).length = Nterms 3 - Nterms 0 ∧
     (LcellSlice 9 3 1).length = Nterms (3 - 1) ∧
     McellIndices 3 1 = Finset.Ico (1 * Msize 3) ((1 + 1) * Msize 3) ∧
     LcellIndices 3 1 = Finset.Ico (1 * Lsize 3) ((1 + 1) * Lsize 3) ∧
     MbaseOf 3 1 + Msize 3 ≤ (arenaM 9 3).length ∧
     LbaseOf 3 1 + Lsize 3 ≤ (arenaL 9 3).length ∧
     (∀ j, j ≠ 1 → Disjoint (McellIndices 3 1) (McellIndices 3 j)) ∧
     (∀ j, j ≠ 1 → Disjoint (LcellIndices 3 1) (LcellIndices 3 j))) :=
  ⟨by decide, cell_coefficient_slices 9 3 1 (by decide)⟩

/-- Accumulating a list by appending one image per element is the same as
mapping. -/
theorem foldl_push_eq_map {α β : Type} (f : α → β) :
    ∀ (l : List α) (acc : List β),
      l.foldl (fun a x => a ++ [f x]) acc = acc ++ l.map f := by
  intro l
  induction l with
  | nil => intro acc; simp
  | cons x xs ih => intro acc; simp [ih]

/-- C6. In `lazy.cpp`, `type = 0` makes every per-order field computation
use the FMM method and `type = 1` the Barnes-Hut method; the loop visits
exactly the orders `[2, maxorder)`; and the process exits with code 0 on
success. -/
theorem lazy_type_selects_method (p : LazyParams) :
    (p.ty = 0 → ∀ e ∈ (lazyRun p).1, e.2 = some FieldMethod.fmm) ∧
    (p.ty = 1 → ∀ e ∈ (lazyRun p).1, e.2 = some FieldMethod.bh) ∧
    (lazyRun p).1.map Prod.fst = lazyOrders p.maxorder ∧
    (lazyRun p).2 = 0 := by
  have htr : (lazyRun p).1 =
      (lazyOrders p.maxorder).map (fun o => (o, methodCall p.ty)) := by
    simpa using foldl_push_eq_map (fun o => (o, methodCall p.ty)) (lazyOrders p.maxorder) []
  refine ⟨?_, ?_, ?_, rfl⟩
  · intro h e he
    rw [htr] at he
    rcases List.mem_map.mp he with ⟨o, _, rfl⟩
    simp [methodCall, h]
  · intro h e he
    rw [htr] at he
    rcases List.mem_map.mp he with ⟨o, _, rfl⟩
    simp [methodCall, h]
  · rw [htr]
    simp [Function.comp_def]

/-- Witness for C6: with `type = 0` every computation is FMM, with
`type = 1` every computation is BH, and the exit code is 0. -/
theorem lazy_type_selects_method_witness :
    (∀ e ∈ (lazyRun ⟨100, 32, 1/2, 5, 0⟩).1, e.2 = some FieldMethod.fmm) ∧
    (∀ e ∈ (lazyRun ⟨100, 32, 1/2, 5, 1⟩).1, e.2 = some FieldMethod.bh) ∧
    (lazyRun ⟨100, 32, 1/2, 5, 0⟩).2 = 0 :=
  ⟨(lazy_type_selects_method ⟨100, 32, 1/2, 5, 0⟩).1 rfl,
   (lazy_type_selects_method ⟨100, 32, 1/2, 5, 1⟩).2.1 rfl,
   (lazy_type_selects_method ⟨100, 32, 1/2, 5, 0⟩).2.2.2⟩

/-- C7. For each computed order the driver writes a file named
`errors_lazy_p_<order>_n_<N>_ncrit_<ncrit>_theta_<theta>_type_<type>.txt`
with exactly one value per line: line `i` holds
`(F_exact[i] - F_approx[i]) / F_exact[i]`, for every `i = 0..N-1` in
index order. -/
theorem lazy_error_file_contents (order N ncrit : Nat) (thetaStr : String) (ty : Nat)
    (Fexact Fapprox : List ℚ) :
    (writeErrFile order N ncrit thetaStr ty Fexact Fapprox).name =
      "errors_lazy_p_" ++ toString order ++ "_n_" ++ toString N ++ "_ncrit_" ++
        toString ncrit ++ "_theta_" ++ thetaStr ++ "_type_" ++ toString ty ++ ".txt" ∧
    (writeErrFile order N ncrit thetaStr ty Fexact Fapprox).lines.length = N ∧
    ∀ i, i < N →
      (writeErrFile order N ncrit thetaStr ty Fexact Fapprox).lines.getD i 0 =
        (Fexact.getD i 0 - Fapprox.getD i 0) / Fexact.getD i 0 := by
  have hl : (writeErrFile order N ncrit thetaStr ty Fexact Fapprox).lines =
      (List.range N).map
        (fun i => (Fexact.getD i 0 - Fapprox.getD i 0) / Fexact.getD i 0) := by
    simpa [writeErrFile, errLines] using
      foldl_push_eq_map
        (fun i => (Fexact.getD i 0 - Fapprox.getD i 0) / Fexact.getD i 0)
        (List.range N) []
  refine ⟨rfl, ?_, ?_⟩
  · simp [hl]
  · intro i hi
    rw [hl, List.getD_eq_getElem?_getD, List.getElem?_map]
    rw [List.getElem?_eq_getElem (by simpa using hi)]
    simp

/-- Witness for C7 at `N = 2` with concrete field vectors. -/
theorem lazy_error_file_contents_witness :
    (writeErrFile 4 2 32 "0.500000" 0 [3, 5] [2, 1]).name =
      "errors_lazy_p_" ++ toString 4 ++ "_n_" ++ toString 2 ++ "_ncrit_" ++
        toString 32 ++ "_theta_" ++ "0.500000" ++ "_type_" ++ toString 0 ++ ".txt" ∧
    (writeErrFile 4 2 32 "0.500000" 0 [3, 5] [2, 1]).lines.length = 2 ∧
    ∀ i, i < 2 →
      (writeErrFile 4 2 32 "0.500000" 0 [3, 5] [2, 1]).lines.getD i 0 =
        (List.getD [3, 5] i 0 - List.getD [2, 1] i 0) / List.getD [3, 5] i 0 :=
  lazy_error_file_contents 4 2 32 "0.500000" 0 [3, 5] [2, 1]

/-- C8. In `scaling_test.cpp` the positions array `r` is allocated but
never written before the particles (which point into it) are passed on:
after the set-up loop every entry of `r` is still uninitialized, every
particle `i` references position offset `3*i` of `r`, and hence every
position slot a particle can read is uninitialized. -/
theorem scaling_positions_uninitialized (N : Nat) (draw sqrtA : _) :
    (∀ j, (scalingSetup N draw sqrtA).rMem.getD j none = none) ∧
    (scalingSetup N draw sqrtA).particles =
      (List.range N).map (fun i => (3 * i, 3 * i)) ∧
    ∀ i, i < N → ∀ k, k < 3 →
      (scalingSetup N draw sqrtA).rMem.getD
        (((scalingSetup N draw sqrtA).particles.getD i (0, 0)).1 + k) none = none := by
  have hr : ∀ (l : List Nat) (st : ScalingSetupSt),
      (l.foldl (scalingStep draw sqrtA) st).rMem = st.rMem := by
    intro l
    induction l with
    | nil => intro st; rfl
    | cons x xs ih => intro st; rw [List.foldl_cons, ih]; rfl
  have hrm : (scalingSetup N draw sqrtA).rMem = List.replicate (3 * N) none := hr _ _
  have hnone : ∀ j, (scalingSetup N draw sqrtA).rMem.getD j none = none := by
    intro j
    rw [hrm, List.getD_eq_getElem?_getD, List.getElem?_replicate]
    by_cases h : j < 3 * N <;> simp [h]
  have hp : ∀ (l : List Nat) (st : ScalingSetupSt),
      (l.foldl (scalingStep draw sqrtA) st).particles =
        st.particles ++ l.map (fun i => (3 * i, 3 * i)) := by
    intro l
    induction l with
    | nil => intro st; simp
    | cons x xs ih => intro st; rw [List.foldl_cons, ih]; simp [scalingStep]
  refine ⟨hnone, by simpa [scalingSetup] using hp (List.range N) _, ?_⟩
  intro i _ k _
  exact hnone _

/-- Witness for C8 at `N = 2` with concrete draw and square-root
functions. -/
theorem scaling_positions_uninitialized_witness :
    (∀ j, (scalingSetup 2 (fun n => (n : ℚ)) id).rMem.getD j none = none) ∧
    (scalingSetup 2 (fun n => (n : ℚ)) id).particles =
      (List.range 2).map (fun i => (3 * i, 3 * i)) ∧
    ∀ i, i < 2 → ∀ k, k < 3 →
      (scalingSetup 2 (fun n => (n : ℚ)) id).rMem.getD
        (((scalingSetup 2 (fun n => (n : ℚ)) id).particles.getD i (0, 0)).1 + k) none = none :=
  scaling_positions_uninitialized 2 (fun n => (n : ℚ)) id

/-- C9. `lazy.cpp` reads `argv[1]` through `argv[5]` without checking
`argc`, so the `type` argument is mandatory: parsing succeeds exactly
when at least five arguments follow the program name, and for every
invocation with exactly four arguments (`argc = 5`) the read of
`argv[5]` dereferences the null terminator of the argument vector. -/
theorem lazy_argv_five_mandatory (argv : List String) :
    (exceptOk (lazyReadArgs argv) = true ↔ 6 ≤ argv.length) ∧
    (argv.length = 5 →
      lazyReadArgs argv = .error (.nullDeref 5) ∧ cArgvGet argv 5 = none) := by
  constructor
  · by_cases h : 6 ≤ argv.length
    · have e1 : cArgvGet argv 1 = some (argv.get ⟨1, by omega⟩) :=
        List.getElem?_eq_getElem (by omega)
      have e2 : cArgvGet argv 2 = some (argv.get ⟨2, by omega⟩) :=
        List.getElem?_eq_getElem (by omega)
      have e3 : cArgvGet argv 3 = some (argv.get ⟨3, by omega⟩) :=
        List.getElem?_eq_getElem (by omega)
      have e4 : cArgvGet argv 4 = some (argv.get ⟨4, by omega⟩) :=
        List.getElem?_eq_getElem (by omega)
      have e5 : cArgvGet argv 5 = some (argv.get ⟨5, by omega⟩) :=
        List.getElem?_eq_getElem (by omega)
      simp [lazyReadArgs, e1, e2, e3, e4, e5, exceptOk, h]
    · have h5 : cArgvGet argv 5 = none :=
        List.getElem?_eq_none_iff.mpr (by omega)
      rcases h1 : cArgvGet argv 1 with _ | a1 <;>
        rcases h2 : cArgvGet argv 2 with _ | a2 <;>
        rcases h3 : cArgvGet argv 3 with _ | a3 <;>
        rcases h4 : cArgvGet argv 4 with _ | a4 <;>
        simp [lazyReadArgs, h1, h2, h3, h4, h5, exceptOk] <;> omega
  · intro hlen
    have h5 : cArgvGet argv 5 = none :=
      List.getElem?_eq_none_iff.mpr (by omega)
    have e1 : cArgvGet argv 1 = some (argv.get ⟨1, by omega⟩) :=
      List.getElem?_eq_getElem (by omega)
    have e2 : cArgvGet argv 2 = some (argv.get ⟨2, by omega⟩) :=
      List.getElem?_eq_getElem (by omega)
    have e3 : cArgvGet argv 3 = some (argv.get ⟨3, by omega⟩) :=
      List.getElem?_eq_getElem (by omega)
    have e4 : cArgvGet argv 4 = some (argv.get ⟨4, by omega⟩) :=
      List.getElem?_eq_getElem (by omega)
    exact ⟨by simp [lazyReadArgs, e1, e2, e3, e4, h5], h5⟩

/-- Witness for C9: a concrete invocation with four command-line
arguments (five argv entries) crashes on the null terminator. -/
theorem lazy_argv_five_mandatory_witness :
    (exceptOk (lazyReadArgs ["prog", "1000", "32", "0.5", "4"]) = true ↔
      6 ≤ (["prog", "1000", "32", "0.5", "4"] : List String).length) ∧
    (["prog", "1000", "32", "0.5", "4"] : List String).length = 5 ∧
    lazyReadArgs ["prog", "1000", "32", "0.5", "4"] = .error (.nullDeref 5) ∧
    cArgvGet ["prog", "1000", "32", "0.5", "4"] 5 = none := by
  have h := lazy_argv_five_mandatory ["prog", "1000", "32", "0.5", "4"]
  exact ⟨h.1, rfl, (h.2 rfl).1, (h.2 rfl).2⟩

/-- C3. A pair of cells (j, k) is treated as admissible by the driver if
and only if `‖c_j − c_k‖ > (rmax_j + rmax_k) / θ` — the Dehnen criterion
on the cells' `rmax` fields — and on an admissible (non leaf-leaf) pair
the driver dispatches exactly M2L in FMM mode and M2P against the target
subtree's particles in BH mode. -/
theorem dehnen_admissibility (ncrit : Nat) (theta : ℚ) (cs : List CellT)
    (j k fuel : Nat) (htheta : 0 < theta)
    (hj : 0 ≤ (getC cs j).rmax) (hk : 0 ≤ (getC cs k).rmax) :
    (admissibleB theta (getC cs j) (getC cs k) = true ↔
      (((getC cs j).rmax + (getC cs k).rmax : ℚ) : ℝ) / (theta : ℝ) <
        Real.sqrt ((dist2 (getC cs j) (getC cs k) : ℚ) : ℝ)) ∧
    (pairAction ncrit theta cs j k = PairAction.far ↔
      ¬(isLeafC ncrit (getC cs j) = true ∧ isLeafC ncrit (getC cs k) = true) ∧
        admissibleB theta (getC cs j) (getC cs k) = true) ∧
    (pairAction ncrit theta cs j k = PairAction.far →
      interact_dehnen FieldMethod.fmm ncrit theta cs (fuel + 1) j k =
        [Dispatch.m2l j k] ∧
      interact_dehnen FieldMethod.bh ncrit theta cs (fuel + 1) j k =
        (subtreeParticles ncrit cs fuel j).map (Dispatch.m2p k)) := by
  have hthetaR : (0 : ℝ) < (theta : ℝ) := by exact_mod_cast htheta
  have hsum : (0 : ℝ) ≤ (((getC cs j).rmax + (getC cs k).rmax : ℚ) : ℝ) := by
    exact_mod_cast add_nonneg hj hk
  refine ⟨?_, ?_, ?_⟩
  · have key : (((getC cs j).rmax + (getC cs k).rmax : ℚ) : ℝ) / (theta : ℝ) <
        Real.sqrt ((dist2 (getC cs j) (getC cs k) : ℚ) : ℝ) ↔
        ((getC cs j).rmax + (getC cs k).rmax) ^ 2 <
          dist2 (getC cs j) (getC cs k) * theta ^ 2 := by
      rw [Real.lt_sqrt (div_nonneg hsum hthetaR.le), div_pow,
        div_lt_iff₀ (pow_pos hthetaR 2)]
      constructor
      · intro h; exact_mod_cast h
      · intro h; exact_mod_cast h
    rw [key]
    simp [admissibleB]
  · cases hLj : isLeafC ncrit (getC cs j) <;>
      cases hLk : isLeafC ncrit (getC cs k) <;>
      cases hadm : admissibleB theta (getC cs j) (getC cs k) <;>
      simp [pairAction, hLj, hLk, hadm]
  · intro hfar
    constructor <;> simp [interact_dehnen, hfar]

/-- Witness for C3 on a concrete admissible pair (`θ = 1`, centres 4
apart, `rmax = 1` each). -/
theorem dehnen_admissibility_witness :
    (0 : ℚ) < 1 ∧ (0 : ℚ) ≤ (getC [demoCellA, demoCellB] 0).rmax ∧
    (0 : ℚ) ≤ (getC [demoCellA, demoCellB] 1).rmax ∧
    ((admissibleB 1 (getC [demoCellA, demoCellB] 0) (getC [demoCellA, demoCellB] 1) = true ↔
      (((getC [demoCellA, demoCellB] 0).rmax + (getC [demoCellA, demoCellB] 1).rmax : ℚ) : ℝ) / ((1 : ℚ) : ℝ) <
        Real.sqrt ((dist2 (getC [demoCellA, demoCellB] 0) (getC [demoCellA, demoCellB] 1) : ℚ) : ℝ)) ∧
    (pairAction 1 1 [demoCellA, demoCellB] 0 1 = PairAction.far ↔
      ¬(isLeafC 1 (getC [demoCellA, demoCellB] 0) = true ∧
          isLeafC 1 (getC [demoCellA, demoCellB] 1) = true) ∧
        admissibleB 1 (getC [demoCellA, demoCellB] 0) (getC [demoCellA, demoCellB] 1) = true) ∧
    (pairAction 1 1 [demoCellA, demoCellB] 0 1 = PairAction.far →
      interact_dehnen FieldMethod.fmm 1 1 [demoCellA, demoCellB] (3 + 1) 0 1 =
        [Dispatch.m2l 0 1] ∧
      interact_dehnen FieldMethod.bh 1 1 [demoCellA, demoCellB] (3 + 1) 0 1 =
        (subtreeParticles 1 [demoCellA, demoCellB] 3 0).map (Dispatch.m2p 1))) := by
  have hA : getC [demoCellA, demoCellB] 0 = demoCellA := rfl
  have hB : getC [demoCellA, demoCellB] 1 = demoCellB := rfl
  refine ⟨by norm_num, ?_, ?_,
    dehnen_admissibility 1 1 [demoCellA, demoCellB] 0 1 3 (by norm_num) ?_ ?_⟩
  · rw [hA]; norm_num [demoCellA]
  · rw [hB]; norm_num [demoCellB, demoCellA]
  · rw [hA]; norm_num [demoCellA]
  · rw [hB]; norm_num [demoCellB, demoCellA]

theorem getC_oob {cs : List CellT} {j : Nat} (h : cs.length ≤ j) : getC cs j = default := by
  simp [getC, List.getD_eq_getElem?_getD, List.getElem?_eq_none_iff.mpr h]

theorem getC_set (cs : List CellT) (p : Nat) (b : CellT) (j : Nat) :
    getC (cs.set p b) j = if p = j ∧ p < cs.length then b else getC cs j := by
  simp only [getC, List.getD_eq_getElem?_getD, List.getElem?_set]
  by_cases h1 : p = j
  · subst h1
    by_cases h2 : p < cs.length
    · simp [h2]
    · have h3 : cs[p]? = none := List.getElem?_eq_none_iff.mpr (by omega)
      simp [h2, h3]
  · simp [h1]

theorem getC_append (cs : List CellT) (b : CellT) (j : Nat) :
    getC (cs ++ [b]) j =
      if j < cs.length then getC cs j else if j = cs.length then b else default := by
  simp only [getC, List.getD_eq_getElem?_getD, List.getElem?_append]
  by_cases h1 : j < cs.length
  · simp [h1]
  · by_cases h2 : j = cs.length
    · subst h2
      simp [h1]
    · have h3 : ([b] : List CellT)[j - cs.length]? = none :=
        List.getElem?_eq_none_iff.mpr (by simp; omega)
      have h4 : cs[j]? = none := List.getElem?_eq_none_iff.mpr (by omega)
      simp [h1, h2, h3, h4]

theorem default_Q {ncrit : Nat} (hncrit : 1 ≤ ncrit) : QCell ncrit (default : CellT) := by
  constructor
  · intro _; rfl
  · intro h
    have h0 : (default : CellT).nleaf = 0 := rfl
    omega

theorem childCell_Q {ncrit : Nat} (hncrit : 1 ≤ ncrit) (pc : CellT) (pIdx o order : Nat) :
    QCell ncrit (childCell pc pIdx o order ncrit) := by
  constructor
  · intro _; rfl
  · intro h
    have h0 : (childCell pc pIdx o order ncrit).nleaf = 0 := rfl
    omega

theorem testBit_ne_zero {m o : Nat} (h : m.testBit o = true) : m ≠ 0 := by
  intro h0
  rw [h0] at h
  simp [Nat.zero_testBit] at h

theorem or_shift_ne_zero (m o : Nat) : m ||| (1 <<< o) ≠ 0 := by
  refine testBit_ne_zero (o := o) ?_
  simp [Nat.testBit_or, Nat.shiftLeft_eq, Nat.testBit_two_pow_self]

theorem redistribute_cap_true
    (ins : List CellT → Nat → Nat → List CellT × Bool)
    (parts : List PartT) (order ncrit : Nat) (pc : CellT) (pIdx : Nat) :
    ∀ (ls : List Nat) (cs : List CellT) (tbl : List Nat) (mask : Nat),
      (redistribute ins parts order ncrit pc pIdx ls cs tbl mask true).2.2.2 = true := by
  intro ls
  induction ls with
  | nil => intro cs tbl mask; rfl
  | cons l ls ih =>
    intro cs tbl mask
    by_cases hbit : mask.testBit (octantOf pc (parts.getD l default))
    · simp only [redistribute, hbit, if_true, Bool.true_or]
      exact ih _ _ _
    · simp only [redistribute, hbit, if_false, Bool.true_or]
      exact ih _ _ _

theorem redistribute_pres
    (ins : List CellT → Nat → Nat → List CellT × Bool)
    (parts : List PartT) (order ncrit : Nat) (pc : CellT) (pIdx : Nat)
    (hncrit : 1 ≤ ncrit)
    (hins : ∀ cs c l, (ins cs c l).2 = false → InvC ncrit cs → InvC ncrit (ins cs c l).1) :
    ∀ (ls : List Nat) (cs : List CellT) (tbl : List Nat) (mask : Nat) (cap : Bool),
      (redistribute ins parts order ncrit pc pIdx ls cs tbl mask cap).2.2.2 = false →
      InvC ncrit cs →
      InvC ncrit (redistribute ins parts order ncrit pc pIdx ls cs tbl mask cap).1 ∧
      (mask ≠ 0 →
        (redistribute ins parts order ncrit pc pIdx ls cs tbl mask cap).2.2.1 ≠ 0) ∧
      (ls ≠ [] →
        (redistribute ins parts order ncrit pc pIdx ls cs tbl mask cap).2.2.1 ≠ 0) := by
  intro ls
  induction ls with
  | nil =>
    intro cs tbl mask cap _ hinv
    exact ⟨hinv, fun h => h, fun h => absurd rfl h⟩
  | cons l ls ih =>
    intro cs tbl mask cap hcap hinv
    by_cases hbit : mask.testBit (octantOf pc (parts.getD l default))
    · simp only [redistribute, hbit, if_true] at hcap ⊢
      have hflagin : (cap || (ins cs (tbl.getD (octantOf pc (parts.getD l default)) 0) l).2)
          = false := by
        by_contra hne
        have htrue : (cap ||
            (ins cs (tbl.getD (octantOf pc (parts.getD l default)) 0) l).2) = true := by
          revert hne
          cases cap || (ins cs (tbl.getD (octantOf pc (parts.getD l default)) 0) l).2 <;> simp
        rw [htrue] at hcap
        rw [redistribute_cap_true] at hcap
        exact Bool.true_eq_false.mp hcap
      have hr1 : (ins cs (tbl.getD (octantOf pc (parts.getD l default)) 0) l).2 = false := by
        rcases Bool.or_eq_false_iff.mp hflagin with ⟨_, h⟩
        exact h
      have hinv1 := hins _ _ _ hr1 hinv
      obtain ⟨hA, hB, _⟩ := ih _ _ _ _ hcap hinv1
      refine ⟨hA, hB, fun _ => hB (testBit_ne_zero hbit)⟩
    · simp only [redistribute] at hcap ⊢
      rw [if_neg hbit] at hcap ⊢
      have hinv1 : InvC ncrit (cs ++ [childCell pc pIdx
          (octantOf pc (parts.getD l default)) order ncrit]) := by
        intro j
        rw [getC_append]
        by_cases h1 : j < cs.length
        · rw [if_pos h1]; exact hinv j
        · rw [if_neg h1]
          by_cases h2 : j = cs.length
          · rw [if_pos h2]; exact childCell_Q hncrit pc pIdx _ order
          · rw [if_neg h2]; exact default_Q hncrit
      have hflagin : (cap || (ins (cs ++ [childCell pc pIdx
          (octantOf pc (parts.getD l default)) order ncrit]) cs.length l).2) = false := by
        by_contra hne
        have htrue : (cap || (ins (cs ++ [childCell pc pIdx
            (octantOf pc (parts.getD l default)) order ncrit]) cs.length l).2) = true := by
          revert hne
          cases cap || (ins (cs ++ [childCell pc pIdx
            (octantOf pc (parts.getD l default)) order ncrit]) cs.length l).2 <;> simp
        rw [htrue] at hcap
        rw [redistribute_cap_true] at hcap
        exact Bool.true_eq_false.mp hcap
      have hr1 : (ins (cs ++ [childCell pc pIdx
          (octantOf pc (parts.getD l default)) order ncrit]) cs.length l).2 = false := by
        rcases Bool.or_eq_false_iff.mp hflagin with ⟨_, h⟩
        exact h
      have hinv2 := hins _ _ _ hr1 hinv1
      obtain ⟨hA, hB, _⟩ := ih _ _ _ _ hcap hinv2
      have hmask : mask ||| (1 <<< octantOf pc (parts.getD l default)) ≠ 0 :=
        or_shift_ne_zero _ _
      exact ⟨hA, fun _ => hB hmask, fun _ => hB hmask⟩

theorem pushDownIn_pres
    (ins : List CellT → Nat → Nat → List CellT × Bool)
    (parts : List PartT) (order ncrit : Nat)
    (hncrit : 1 ≤ ncrit)
    (hins : ∀ cs c l, (ins cs c l).2 = false → InvC ncrit cs → InvC ncrit (ins cs c l).1)
    (cs : List CellT) (p i : Nat)
    (hp : ncrit ≤ (getC cs p).nleaf)
    (hcap : (pushDownIn ins parts order ncrit cs p i).2 = false)
    (hinv : InvC ncrit cs) :
    InvC ncrit (pushDownIn ins parts order ncrit cs p i).1 := by
  obtain ⟨hleaf, hch⟩ := (hinv p).2 hp
  by_cases hbit : (getC cs p).nchild.testBit (octantOf (getC cs p) (parts.getD i default))
  · simp only [pushDownIn, hbit, if_true] at hcap ⊢
    exact hins _ _ _ hcap hinv
  · have hplen : p < cs.length := by
      by_contra h
      have h1 : getC cs p = default := getC_oob (by omega)
      rw [h1] at hp
      have h0 : (default : CellT).nleaf = 0 := rfl
      omega
    simp only [pushDownIn] at hcap ⊢
    rw [if_neg hbit] at hcap ⊢
    refine hins _ _ _ hcap ?_
    intro j
    rw [getC_set]
    by_cases hj : p = j
    · subst hj
      rw [if_pos ⟨rfl, by simp; omega⟩]
      constructor
      · intro hlt
        dsimp only at hlt
        omega
      · intro _
        exact ⟨hleaf, or_shift_ne_zero _ _⟩
    · rw [if_neg (by tauto)]
      rw [getC_append]
      by_cases h2 : j < cs.length
      · rw [if_pos h2]; exact hinv j
      · rw [if_neg h2]
        by_cases h3 : j = cs.length
        · rw [if_pos h3]; exact childCell_Q hncrit _ p _ order
        · rw [if_neg h3]; exact default_Q hncrit

theorem insertP_pres (parts : List PartT) (order ncrit : Nat) (hncrit : 1 ≤ ncrit) :
    ∀ (fuel : Nat) (cs : List CellT) (p i : Nat),
      (insertP parts order ncrit fuel cs p i).2 = false →
      InvC ncrit cs → InvC ncrit (insertP parts order ncrit fuel cs p i).1 := by
  intro fuel
  induction fuel with
  | zero =>
    intro cs p i hcap
    exact absurd hcap (by simp [insertP])
  | succ fuel ih =>
    intro cs p i hcap hinv
    by_cases hlt : (getC cs p).nleaf < ncrit
    · by_cases hcross : ncrit ≤ (getC (addLeaf cs p i) p).nleaf
      · simp only [insertP] at hcap ⊢
        rw [if_pos hlt, if_pos hcross] at hcap ⊢
        have hplen : p < cs.length := by
          by_contra hpl
          have hlen : (addLeaf cs p i).length = cs.length := by simp [addLeaf]
          have h1 : getC (addLeaf cs p i) p = default := getC_oob (by omega)
          rw [h1] at hcross
          have h0 : (default : CellT).nleaf = 0 := rfl
          omega
        have hgetadd : getC (addLeaf cs p i) p =
            { getC cs p with
                leaf := (getC cs p).leaf ++ [i]
                nleaf := (getC cs p).nleaf + 1 } := by
          simp only [addLeaf]
          rw [getC_set, if_pos ⟨rfl, hplen⟩]
        have hinv2 : InvC ncrit ((addLeaf cs p i).set p
            { getC (addLeaf cs p i) p with
                leaf := ([] : List Nat)
                nleaf := 0
                nchild := 0
                child := List.replicate 8 0 }) := by
          intro j
          rw [getC_set]
          by_cases hj : p = j ∧ p < (addLeaf cs p i).length
          · rw [if_pos hj]
            refine ⟨fun _ => rfl, fun hge => ?_⟩
            dsimp only at hge
            omega
          · rw [if_neg hj]
            simp only [addLeaf]
            rw [getC_set]
            by_cases hb2 : p = j ∧ p < cs.length
            · exact absurd ⟨hb2.1, by simp [addLeaf]; omega⟩ hj
            · rw [if_neg hb2]
              exact hinv j
        have hrr := redistribute_pres
          (fun cs2 c l => insertP parts order ncrit fuel cs2 c l)
          parts order ncrit (getC (addLeaf cs p i) p) p hncrit
          (fun cs2 c l hf hi => ih cs2 c l hf hi)
          ((getC (addLeaf cs p i) p).leaf)
          ((addLeaf cs p i).set p
            { getC (addLeaf cs p i) p with
                leaf := ([] : List Nat)
                nleaf := 0
                nchild := 0
                child := List.replicate 8 0 })
          (List.replicate 8 0) 0 false hcap hinv2
        intro j
        rw [getC_set]
        by_cases hj : p = j ∧ p < (redistribute
            (fun cs2 c l => insertP parts order ncrit fuel cs2 c l)
            parts order ncrit (getC (addLeaf cs p i) p) p
            ((getC (addLeaf cs p i) p).leaf)
            ((addLeaf cs p i).set p
              { getC (addLeaf cs p i) p with
                  leaf := ([] : List Nat)
                  nleaf := 0
                  nchild := 0
                  child := List.replicate 8 0 })
            (List.replicate 8 0) 0 false).1.length
        · rw [if_pos hj]
          refine ⟨fun hlt2 => ?_, fun _ => ⟨rfl, ?_⟩⟩
          · dsimp only at hlt2
            omega
          · dsimp only
            refine hrr.2.2 ?_
            rw [hgetadd]
            simp
        · rw [if_neg hj]
          exact hrr.1 j
      · simp only [insertP] at hcap ⊢
        rw [if_pos hlt, if_neg hcross] at hcap ⊢
        intro j
        simp only [addLeaf]
        rw [getC_set]
        by_cases hj : p = j ∧ p < cs.length
        · rw [if_pos hj]
          refine ⟨fun _ => (hinv p).1 hlt, fun hge => ?_⟩
          exfalso
          have hgetadd : getC (addLeaf cs p i) p =
              { getC cs p with
                  leaf := (getC cs p).leaf ++ [i]
                  nleaf := (getC cs p).nleaf + 1 } := by
            simp only [addLeaf]
            rw [getC_set, if_pos ⟨rfl, hj.2⟩]
          rw [hgetadd] at hcross
          dsimp only at hcross hge
          omega
        · rw [if_neg hj]
          exact hinv j
    · simp only [insertP] at hcap ⊢
      rw [if_neg hlt] at hcap ⊢
      have hplen : p < cs.length := by
        by_contra hpl
        rw [getC_oob (by omega)] at hlt
        have h0 : (default : CellT).nleaf = 0 := rfl
        omega
      have hbump : getC (bumpCount cs p) p =
          { getC cs p with nleaf := (getC cs p).nleaf + 1 } := by
        simp only [bumpCount]
        rw [getC_set, if_pos ⟨rfl, hplen⟩]
      have hp2 : ncrit ≤ (getC (bumpCount cs p) p).nleaf := by
        rw [hbump]
        dsimp only
        omega
      have hinvb : InvC ncrit (bumpCount cs p) := by
        intro j
        simp only [bumpCount]
        rw [getC_set]
        by_cases hj : p = j ∧ p < cs.length
        · rw [if_pos hj]
          refine ⟨fun hlt2 => ?_, fun _ => ?_⟩
          · dsimp only at hlt2
            omega
          · obtain ⟨hl, hc⟩ := (hinv p).2 (by omega)
            exact ⟨hl, hc⟩
        · rw [if_neg hj]
          exact hinv j
      exact pushDownIn_pres _ parts order ncrit hncrit (fun a b c hf hi => ih a b c hf hi)
        (bumpCount cs p) p i hp2 hcap hinvb

theorem insertLoop_cap_true (parts : List PartT) (order ncrit fuel : Nat) :
    ∀ (idxs : List Nat) (cs : List CellT),
      (insertLoop parts order ncrit fuel idxs cs true).2 = true := by
  intro idxs
  induction idxs with
  | nil => intro cs; rfl
  | cons i idxs ih =>
    intro cs
    simp only [insertLoop, Bool.true_or]
    exact ih _

theorem insertLoop_pres (parts : List PartT) (order ncrit fuel : Nat) (hncrit : 1 ≤ ncrit) :
    ∀ (idxs : List Nat) (cs : List CellT) (cap : Bool),
      (insertLoop parts order ncrit fuel idxs cs cap).2 = false →
      InvC ncrit cs → InvC ncrit (insertLoop parts order ncrit fuel idxs cs cap).1 := by
  intro idxs
  induction idxs with
  | nil => intro cs cap _ hinv; exact hinv
  | cons i idxs ih =>
    intro cs cap hcap hinv
    simp only [insertLoop] at hcap ⊢
    have hflagin : (cap || (insertP parts order ncrit fuel cs 0 i).2) = false := by
      by_contra hne
      have htrue : (cap || (insertP parts order ncrit fuel cs 0 i).2) = true := by
        revert hne
        cases cap || (insertP parts order ncrit fuel cs 0 i).2 <;> simp
      rw [htrue] at hcap
      rw [insertLoop_cap_true] at hcap
      exact Bool.true_eq_false.mp hcap
    exact ih _ _ hcap
      (insertP_pres parts order ncrit hncrit fuel cs 0 i
        (Bool.or_eq_false_iff.mp hflagin).2 hinv)

/-- C4. After a construction that never hit the depth bound, a cell is a
leaf (childless) exactly when `nleaf < ncrit`, and every split cell —
kept at `nleaf ≥ ncrit` as the internal-node marker — has an empty leaf
list: `split_cell` cleared it when the cell was split. -/
theorem built_tree_leaf_iff (parts : List PartT) (x y z r : ℚ) (ncrit order fuel : Nat)
    (hncrit : 1 ≤ ncrit)
    (hcap : (build_tree parts (mkCell x y z r 0 order 0 ncrit) ncrit order fuel).2 = false) :
    ∀ c ∈ (build_tree parts (mkCell x y z r 0 order 0 ncrit) ncrit order fuel).1,
      (c.nleaf < ncrit ↔ c.nchild = 0) ∧ (c.nchild ≠ 0 → c.leaf = []) := by
  have hroot : InvC ncrit [mkCell x y z r 0 order 0 ncrit] := by
    intro j
    match j with
    | 0 =>
      refine ⟨fun _ => rfl, fun hge => ?_⟩
      have h0 : (getC [mkCell x y z r 0 order 0 ncrit] 0).nleaf = 0 := rfl
      omega
    | j + 1 =>
      rw [getC_oob (by simp)]
      exact default_Q hncrit
  have hinv := insertLoop_pres parts order ncrit fuel hncrit (List.range parts.length)
    [mkCell x y z r 0 order 0 ncrit] false hcap hroot
  intro c hc
  obtain ⟨j, hjlen, hj⟩ := List.mem_iff_getElem.mp hc
  have hq := hinv j
  have hg : getC (build_tree parts (mkCell x y z r 0 order 0 ncrit) ncrit order fuel).1 j
      = c := by
    simp only [build_tree] at hjlen hj ⊢
    simp [getC, List.getD_eq_getElem?_getD, List.getElem?_eq_getElem hjlen, hj]
  rw [show (InvC ncrit (insertLoop parts order ncrit fuel (List.range parts.length)
    [mkCell x y z r 0 order 0 ncrit] false).1) =
    (InvC ncrit (build_tree parts (mkCell x y z r 0 order 0 ncrit) ncrit order fuel).1)
    from rfl] at hinv
  have hq2 := hinv j
  rw [hg] at hq2
  obtain ⟨h1, h2⟩ := hq2
  refine ⟨⟨h1, ?_⟩, ?_⟩
  · intro hch
    by_contra hge
    exact (h2 (by omega)).2 hch
  · intro hch
    have hnl : ¬(c.nleaf < ncrit) := fun hlt => hch (h1 hlt)
    exact (h2 (by omega)).1

/-- Witness for C4: a two-particle build with `ncrit = 2` that performs
one split; the resulting tree satisfies the leaf characterisation. -/
theorem built_tree_leaf_iff_witness :
    1 ≤ 2 ∧
    (build_tree demoParts (mkCell 0 0 0 2 0 3 0 2) 2 3 4).2 = false ∧
    ∀ c ∈ (build_tree demoParts (mkCell 0 0 0 2 0 3 0 2) 2 3 4).1,
      (c.nleaf < 2 ↔ c.nchild = 0) ∧ (c.nchild ≠ 0 → c.leaf = []) :=
  ⟨by decide, by decide, built_tree_leaf_iff demoParts 0 0 0 2 2 3 4 (by decide) (by decide)⟩

theorem foldl_set_length {α : Type} (g : List α → Nat → α) :
    ∀ (l : List Nat) (F : List α),
      (l.foldl (fun F2 tgt => F2.set tgt (g F2 tgt)) F).length = F.length := by
  intro l
  induction l with
  | nil => intro F; rfl
  | cons a l ih => intro F; rw [List.foldl_cons, ih]; simp

theorem applyDispatch_length (ops : FieldOps) (t : TreeT) (F : List ℚ) (d : Dispatch) :
    (applyDispatch ops t F d).length = F.length := by
  match d with
  | Dispatch.p2p j k => exact foldl_set_length _ _ F
  | Dispatch.m2p k i => simp [applyDispatch]
  | Dispatch.m2l j k => exact foldl_set_length _ _ F

theorem foldl_applyDispatch_length (ops : FieldOps) (t : TreeT) :
    ∀ (ds : List Dispatch) (F : List ℚ),
      (ds.foldl (applyDispatch ops t) F).length = F.length := by
  intro ds
  induction ds with
  | nil => intro F; rfl
  | cons d ds ih => intro F; rw [List.foldl_cons, ih, applyDispatch_length]

/-- C2. Tree construction fails with `InvalidParameters` whenever
`ncrit < 1`, `order < 2`, `θ ≤ 0` or `N = 0`; the failure is the build
call's result (fatal to the computation) and no tree object — hence no
partial tree state — is produced. -/
theorem build_invalid_parameters (positions moments : List ℚ) (N ncrit order : Nat)
    (theta : ℚ) (hbad : ncrit < 1 ∨ order < 2 ∨ theta ≤ 0 ∨ N = 0) :
    build_tree_api positions moments N ncrit order theta =
      Except.error BuildErr.invalidParameters ∧
    ∀ t, build_tree_api positions moments N ncrit order theta ≠ Except.ok t := by
  have h : build_tree_api positions moments N ncrit order theta =
      Except.error BuildErr.invalidParameters := by
    simp only [build_tree_api]
    rw [if_pos hbad]
  refine ⟨h, fun t ht => ?_⟩
  rw [h] at ht
  exact absurd ht (by simp)

/-- Witness for C2 at the spec's scenario S6 (`ncrit = 0`). -/
theorem build_invalid_parameters_witness :
    ((0 : Nat) < 1 ∨ (4 : Nat) < 2 ∨ (1 : ℚ) ≤ 0 ∨ (5 : Nat) = 0) ∧
    build_tree_api [] [] 5 0 4 1 = Except.error BuildErr.invalidParameters ∧
    ∀ t, build_tree_api [] [] 5 0 4 1 ≠ Except.ok t :=
  ⟨Or.inl (by decide),
   (build_invalid_parameters [] [] 5 0 4 1 (Or.inl (by decide))).1,
   (build_invalid_parameters [] [] 5 0 4 1 (Or.inl (by decide))).2⟩

/-- C5. The public build entry is
`build_tree(positions, moments, N, ncrit, order, θ)` over flat length-3N
x,y,z-interleaved double arrays: on success the returned `Tree`'s
particle `i` carries `positions[3i..3i+2]` and `moments[3i..3i+2]`, and
the tree exposes `compute_field_exact`, `compute_field_fmm` and
`compute_field_bh`, each yielding one output value per particle. -/
theorem build_tree_api_contract (positions moments : List ℚ) (N ncrit order : Nat)
    (theta : ℚ) (K : PartT → PartT → ℚ) (ops : FieldOps) (t : TreeT)
    (hok : build_tree_api positions moments N ncrit order theta = Except.ok t) :
    t.particles = decodeParticles positions moments N ∧
    (∀ i, i < N → t.particles.getD i default =
      ⟨positions.getD (3 * i) 0, positions.getD (3 * i + 1) 0, positions.getD (3 * i + 2) 0,
       moments.getD (3 * i) 0, moments.getD (3 * i + 1) 0, moments.getD (3 * i + 2) 0⟩) ∧
    (compute_field_exact K t).length = N ∧
    (compute_field_fmm ops t).length = N ∧
    (compute_field_bh ops t).length = N := by
  simp only [build_tree_api] at hok
  by_cases hbad : ncrit < 1 ∨ order < 2 ∨ theta ≤ 0 ∨ N = 0
  · rw [if_pos hbad] at hok
    exact absurd hok (by simp)
  · rw [if_neg hbad] at hok
    have ht : t = ⟨decodeParticles positions moments N,
        (build_tree (decodeParticles positions moments N)
          (mkCell 0 0 0 1 0 order 0 ncrit) ncrit order buildFuel).1,
        N, ncrit, order, theta⟩ := by
      injection hok with h
      exact h.symm
    subst ht
    have hplen : (decodeParticles positions moments N).length = N := by
      simp [decodeParticles]
    refine ⟨rfl, ?_, ?_, ?_, ?_⟩
    · intro i hi
      simp only [decodeParticles]
      rw [List.getD_eq_getElem?_getD, List.getElem?_map,
        List.getElem?_eq_getElem (by simpa using hi)]
      simp
    · simp [compute_field_exact, hplen]
    · simp only [compute_field_fmm]
      rw [foldl_applyDispatch_length]
      simp [hplen]
    · simp only [compute_field_bh]
      rw [foldl_applyDispatch_length]
      simp [hplen]

/-- Witness for C5: a successful concrete build (`N = 2`, `ncrit = 3`,
`order = 2`, `θ = 1`) satisfying the facade contract. -/
theorem build_tree_api_contract_witness :
    build_tree_api demoPos demoMom 2 3 2 1 =
      Except.ok ⟨decodeParticles demoPos demoMom 2,
        (build_tree (decodeParticles demoPos demoMom 2)
          (mkCell 0 0 0 1 0 2 0 3) 3 2 buildFuel).1, 2, 3, 2, 1⟩ ∧
    ((⟨decodeParticles demoPos demoMom 2,
        (build_tree (decodeParticles demoPos demoMom 2)
          (mkCell 0 0 0 1 0 2 0 3) 3 2 buildFuel).1, 2, 3, 2, 1⟩ : TreeT).particles =
      decodeParticles demoPos demoMom 2) ∧
    (compute_field_exact (fun _ _ => 0) ⟨decodeParticles demoPos demoMom 2,
        (build_tree (decodeParticles demoPos demoMom 2)
          (mkCell 0 0 0 1 0 2 0 3) 3 2 buildFuel).1, 2, 3, 2, 1⟩).length = 2 := by
  have hok : build_tree_api demoPos demoMom 2 3 2 1 =
      Except.ok ⟨decodeParticles demoPos demoMom 2,
        (build_tree (decodeParticles demoPos demoMom 2)
          (mkCell 0 0 0 1 0 2 0 3) 3 2 buildFuel).1, 2, 3, 2, 1⟩ := by
    simp only [build_tree_api]
    rw [if_neg (by norm_num)]
  have h := build_tree_api_contract demoPos demoMom 2 3 2 1 (fun _ _ => 0)
    ⟨fun _ _ => 0, fun _ _ => 0, fun _ _ _ => 0⟩ _ hok
  exact ⟨hok, h.1, h.2.2.1⟩

end Fmmgen
